import Mathlib

/-!
Shallow embedding of `src/bitset.c` / `src/bitset.h` (repository `cube`).

A bitset is a contiguous array of 64-bit lanes, modelled as a `List Nat`
whose entries are the lane values (each `< 2^64` for well-formed states).
Lane 0 is the packed header `setfields_t` (little-endian):
bits 0..31 `size`, bits 32..47 `flags`, bits 48..63 `tag`.
Reading a lane out of range yields 0 (`List.getD`), a total model of the
C code's in-bounds accesses.
-/

namespace Bitset

-- 2 ^ 64, the lane modulus (uint64_t)
def U64 : Nat := 18446744073709551616

-- 2 ^ 64 - 1, UINT64_MAX
def MASK64 : Nat := 18446744073709551615

-- Models C `~x` on a `uint64_t` value `x < 2^64`: flip the low 64 bits.
def compl64 (v : Nat) : Nat := v ^^^ MASK64

-- Field `size` of the packed header lane: low 32 bits (2^32 = 4294967296).
def sizeField (v : Nat) : Nat := v % 4294967296

-- Field `flags` of the packed header lane: bits 32..47.
def flagsField (v : Nat) : Nat := v / 4294967296 % 65536

-- Field `tag` of the packed header lane: bits 48..63 (2^48 = 281474976710656).
def tagField (v : Nat) : Nat := v / 281474976710656 % 65536

-- Store `(uint32_t) n` into the `size` field of header lane `v`.
def setSizeField (v n : Nat) : Nat := v / 4294967296 * 4294967296 + n % 4294967296

-- Store `(uint16_t) t` into the `tag` field of header lane `v`.
def setTagField (v t : Nat) : Nat := v % 281474976710656 + 281474976710656 * (t % 65536)

-- Lane `i` of bitset storage `s`; out-of-range reads give 0.
def lane (s : List Nat) (i : Nat) : Nat := s.getD i 0

-- Macro `bitset_get_size`: the header's `size` field.
def bitset_get_size (s : List Nat) : Nat := sizeField (lane s 0)

-- Macro `bitset_set_size`: overwrite the header's `size` field.
def bitset_set_size (s : List Nat) (n : Nat) : List Nat :=
  s.set 0 (setSizeField (lane s 0) n)

-- Macro `bitset_get_tag`: the header's `tag` field.
def bitset_get_tag (s : List Nat) : Nat := tagField (lane s 0)

-- Macro `REQ_SZ(elems) = 2 + ((elems - 1) >> 6)` with size_t wraparound of
-- the subtraction (`elems - 1` is computed modulo 2^64).
def REQ_SZ (elems : Nat) : Nat := 2 + (((elems + MASK64) % U64) >>> 6)

-- `bitset_new`: calloc `REQ_SZ elements` zero lanes, then store `w - 1` in `size`.
def bitset_new (elements : Nat) : List Nat :=
  bitset_set_size (List.replicate (REQ_SZ elements) 0) (REQ_SZ elements - 1)

-- `bitset_get`: test bit `index & 63` of lane `1 + (index >> 6)`.
def bitset_get (s : List Nat) (index : Nat) : Bool :=
  decide (lane s (1 + (index >>> 6)) &&& (1 <<< (index &&& 63)) ≠ 0)

-- `bitset_dupl`: malloc `size + 1` lanes and memcpy them from `set`.
def bitset_dupl (s : List Nat) : List Nat := s.take (bitset_get_size s + 1)

-- `bitset_copy`: memcpy `size(src) + 1` lanes from `src` over the front of `dst`.
def bitset_copy (dst src : List Nat) : List Nat :=
  src.take (bitset_get_size src + 1) ++ dst.drop (bitset_get_size src + 1)

-- Helper for `memset(set, 0, w * 8)`: zero lanes `0 .. w - 1`.
def zeroFill (s : List Nat) : Nat → List Nat
  | 0 => s
  | k + 1 => (zeroFill s k).set k 0

-- `bitset_null`: memset the first `REQ_SZ elements` lanes to zero, then set `size`.
def bitset_null (s : List Nat) (elements : Nat) : List Nat :=
  bitset_set_size (zeroFill s (REQ_SZ elements)) (REQ_SZ elements - 1)

-- `bitset_reset`: memset lanes `0 .. size` to zero, then restore `size`.
def bitset_reset (s : List Nat) : List Nat :=
  bitset_set_size (zeroFill s (bitset_get_size s + 1)) (bitset_get_size s)

-- Helper for the `bitset_universe` loop: set lanes `1 .. w` to UINT64_MAX.
def fillOnes (s : List Nat) : Nat → List Nat
  | 0 => s
  | i + 1 => (fillOnes s i).set (i + 1) MASK64

-- `bitset_universe`: `set[0] = 0`, fill lanes `1 .. w` with all-ones,
-- shift the final lane right by `64 * w - elements`, then store `size = w`.
def bitset_universe (s : List Nat) (elements : Nat) : List Nat :=
  let w := REQ_SZ elements - 1
  let s1 := fillOnes (s.set 0 0) w
  bitset_set_size (s1.set w (lane s1 w >>> (64 * w - elements))) w

-- Models `__builtin_popcountll` on a 64-bit lane: number of set bits among 0..63.
def popcount64 (v : Nat) : Nat := ((Finset.range 64).filter (fun i => v.testBit i)).card

-- The summation loop shared by `bitset_ord` and `bitset_tag_ord`:
-- `for (i = n; i > 0; i--) sum += popcountll(set[i]);`.
def ordLoop (s : List Nat) : Nat → Nat
  | 0 => 0
  | i + 1 => popcount64 (lane s (i + 1)) + ordLoop s i

-- `bitset_ord`: total population count of the payload lanes.
def bitset_ord (s : List Nat) : Nat := ordLoop s (bitset_get_size s)

-- `bitset_tag_ord`: recompute the population count and store it (as uint16_t)
-- into the header's `tag` field.
def bitset_tag_ord (s : List Nat) : List Nat :=
  s.set 0 (setTagField (lane s 0) (ordLoop s (bitset_get_size s)))

-- Generic descending lane loop `for (i = n; i > 0; i--) r[i] = f i r[i];`
-- covering every algebra operation's body (the body reads only lane `i` of
-- the mutated operand, passed as the second argument of `f`).
def algLoop (f : Nat → Nat → Nat) : Nat → List Nat → List Nat
  | 0, r => r
  | i + 1, r => algLoop f i (r.set (i + 1) (f (i + 1) (lane r (i + 1))))

-- `bitset_and_inplace`: `a[i] &= b[i]`, bound `BITSET_FIELD(a, size)`.
def bitset_and_inplace (a b : List Nat) : List Nat :=
  algLoop (fun i v => v &&& lane b i) (bitset_get_size a) a

-- `bitset_or_inplace`: `a[i] |= b[i]`, bound `BITSET_FIELD(a, size)`.
def bitset_or_inplace (a b : List Nat) : List Nat :=
  algLoop (fun i v => v ||| lane b i) (bitset_get_size a) a

-- `bitset_diff_inplace`: `a[i] &= ~b[i]`, bound `BITSET_FIELD(a, size)`.
def bitset_diff_inplace (a b : List Nat) : List Nat :=
  algLoop (fun i v => v &&& compl64 (lane b i)) (bitset_get_size a) a

-- `bitset_mask_inplace`: `a[i] &= ~(a[i] & ~b[i])`, bound `BITSET_FIELD(a, size)`.
def bitset_mask_inplace (a b : List Nat) : List Nat :=
  algLoop (fun i v => v &&& compl64 (v &&& compl64 (lane b i))) (bitset_get_size a) a

-- `bitset_xand`: `r[i] &= a[i] ^ b[i]`, bound `BITSET_FIELD(a, size)`
-- (note: the bound is operand `a`'s size field, not `r`'s).
def bitset_xand (r a b : List Nat) : List Nat :=
  algLoop (fun i v => v &&& (lane a i ^^^ lane b i)) (bitset_get_size a) r

/-- Modelled from the spec's words for claim C8: the variant of `bitset_xand`
the claim describes, whose iteration bound is the size field of the mutated
operand `r` rather than the source's actual bound `BITSET_FIELD(a, size)`. -/
def bitset_xand_sizeOfR (r a b : List Nat) : List Nat :=
  algLoop (fun i v => v &&& (lane a i ^^^ lane b i)) (bitset_get_size r) r

-- `bitset_merge`: copy `a`'s size field into `r`, then
-- `r[i] = b[i] ^ ((b[i] ^ a[i]) & c[i])` for `i = size(a) .. 1`.
def bitset_merge (r a b c : List Nat) : List Nat :=
  algLoop (fun i _ => lane b i ^^^ ((lane b i ^^^ lane a i) &&& lane c i))
    (bitset_get_size a) (bitset_set_size r (bitset_get_size a))

/-- Modelled from the spec's words for claim C1: the equivalent two-step form
`r[i] = (a[i] & c[i]) | (b[i] & ~c[i])` named in the source comment and in the
spec's merge row, to be compared with `bitset_merge`. -/
def bitset_merge_twostep (r a b c : List Nat) : List Nat :=
  algLoop (fun i _ => (lane a i &&& lane c i) ||| (lane b i &&& compl64 (lane c i)))
    (bitset_get_size a) (bitset_set_size r (bitset_get_size a))

-- Loop of `bitset_implies`: early-return false when `a[i] & ~b[i]` is nonzero.
def impliesLoop (a b : List Nat) : Nat → Bool
  | 0 => true
  | i + 1 =>
    if lane a (i + 1) &&& compl64 (lane b (i + 1)) ≠ 0 then false
    else impliesLoop a b i

-- `bitset_implies`: true iff `a[i] & ~b[i] == 0` for every payload lane
-- (bound `BITSET_FIELD(a, size)`).
def bitset_implies (a b : List Nat) : Bool := impliesLoop a b (bitset_get_size a)

-- Loop of `bitset_equal`: `memcmp(&a[1], &b[1], len * 8) == 0`, i.e. lanes
-- `1 .. len` pairwise identical.
def eqLoop (a b : List Nat) : Nat → Bool
  | 0 => true
  | i + 1 => decide (lane a (i + 1) = lane b (i + 1)) && eqLoop a b i

-- `bitset_equal`: payload lanes identical, bound `BITSET_FIELD(a, size)`.
def bitset_equal (a b : List Nat) : Bool := eqLoop a b (bitset_get_size a)

-- Well-formedness of storage: every lane value fits in a uint64_t.
def lanes64 (s : List Nat) : Prop := ∀ x ∈ s, x < U64

instance (s : List Nat) : Decidable (lanes64 s) :=
  inferInstanceAs (Decidable (∀ x ∈ s, x < U64))

/-! Basic lane lemmas. -/

theorem lane_set_self {s : List Nat} {i : Nat} (v : Nat) (h : i < s.length) :
    lane (s.set i v) i = v := by
  simp [lane, List.getD_eq_getElem?_getD, List.getElem?_set_self h]

theorem lane_set_other {s : List Nat} {i j : Nat} (v : Nat) (h : i ≠ j) :
    lane (s.set i v) j = lane s j := by
  simp [lane, List.getD_eq_getElem?_getD, List.getElem?_set_ne h]

theorem lane_oob {s : List Nat} {i : Nat} (h : s.length ≤ i) : lane s i = 0 := by
  simp [lane, List.getD_eq_getElem?_getD, List.getElem?_eq_none h]

theorem lane_cons_succ (x : Nat) (l : List Nat) (j : Nat) :
    lane (x :: l) (j + 1) = lane l j := by
  simp [lane]

theorem lane_replicate_lt {n i : Nat} (v : Nat) (h : i < n) :
    lane (List.replicate n v) i = v := by
  simp [lane, List.getD_eq_getElem?_getD, List.getElem?_replicate_of_lt h]

theorem lanes64_lane {s : List Nat} (h : lanes64 s) (i : Nat) : lane s i < U64 := by
  rw [lane, List.getD_eq_getElem?_getD]
  cases hv : s[i]? with
  | none => simp [U64]
  | some v => simpa using h v (List.getElem?_mem hv)

/-! Loop characterizations. -/

theorem length_algLoop (f : Nat → Nat → Nat) :
    ∀ (n : Nat) (r : List Nat), (algLoop f n r).length = r.length
  | 0, _ => rfl
  | n + 1, r => by rw [algLoop, length_algLoop f n, List.length_set]

theorem lane_algLoop (f : Nat → Nat → Nat) :
    ∀ (n : Nat) (r : List Nat) (k : Nat),
      lane (algLoop f n r) k =
        if 1 ≤ k ∧ k ≤ n ∧ k < r.length then f k (lane r k) else lane r k
  | 0, r, k => by
    rw [algLoop, if_neg]
    omega
  | n + 1, r, k => by
    rw [algLoop, lane_algLoop f n]
    simp only [List.length_set]
    by_cases hk : k = n + 1
    · subst hk
      by_cases hlen : n + 1 < r.length
      · rw [if_neg (by omega), lane_set_self _ hlen, if_pos ⟨by omega, by omega, hlen⟩]
      · rw [List.set_eq_of_length_le (by omega), if_neg (by omega), if_neg (by omega)]
    · rw [lane_set_other _ (fun h => hk h.symm)]
      by_cases hin : 1 ≤ k ∧ k ≤ n ∧ k < r.length
      · rw [if_pos hin, if_pos ⟨hin.1, by omega, hin.2.2⟩]
      · rw [if_neg hin, if_neg (by omega)]

theorem algLoop_congr (f g : Nat → Nat → Nat) (hfg : ∀ j v, f j v = g j v) :
    ∀ (n : Nat) (r : List Nat), algLoop f n r = algLoop g n r
  | 0, _ => rfl
  | n + 1, r => by
    rw [algLoop, algLoop, hfg (n + 1) (lane r (n + 1))]
    exact algLoop_congr f g hfg n _

theorem algLoop_congr64 (f g : Nat → Nat → Nat)
    (hfg : ∀ j v, v < U64 → f j v = g j v)
    (hf : ∀ j v, v < U64 → f j v < U64) :
    ∀ (n : Nat) (r : List Nat), (∀ i, lane r i < U64) → algLoop f n r = algLoop g n r
  | 0, _, _ => rfl
  | n + 1, r, hr => by
    rw [algLoop, algLoop, hfg (n + 1) _ (hr (n + 1))]
    refine algLoop_congr64 f g hfg hf n _ (fun i => ?_)
    by_cases hi : i = n + 1
    · subst hi
      by_cases hlen : n + 1 < r.length
      · rw [lane_set_self _ hlen, ← hfg _ _ (hr (n + 1))]
        exact hf _ _ (hr (n + 1))
      · rw [List.set_eq_of_length_le (by omega)]
        exact hr _
    · rw [lane_set_other _ (fun h => hi h.symm)]
      exact hr i

theorem length_fillOnes (s : List Nat) : ∀ m, (fillOnes s m).length = s.length
  | 0 => rfl
  | m + 1 => by rw [fillOnes, List.length_set, length_fillOnes s m]

theorem lane_fillOnes (s : List Nat) :
    ∀ (m k : Nat),
      lane (fillOnes s m) k = if 1 ≤ k ∧ k ≤ m ∧ k < s.length then MASK64 else lane s k
  | 0, k => by
    rw [fillOnes, if_neg]
    omega
  | m + 1, k => by
    rw [fillOnes]
    by_cases hk : k = m + 1
    · subst hk
      by_cases hlen : m + 1 < (fillOnes s m).length
      · rw [lane_set_self _ hlen,
          if_pos ⟨by omega, by omega, by rwa [length_fillOnes] at hlen⟩]
      · have hle : s.length ≤ m + 1 := by rw [length_fillOnes] at hlen; omega
        rw [List.set_eq_of_length_le (by rw [length_fillOnes]; omega), lane_fillOnes s m,
          if_neg (by omega), if_neg (by omega)]
    · rw [lane_set_other _ (fun h => hk h.symm), lane_fillOnes s m]
      by_cases hin : 1 ≤ k ∧ k ≤ m ∧ k < s.length
      · rw [if_pos hin, if_pos ⟨hin.1, by omega, hin.2.2⟩]
      · rw [if_neg hin, if_neg (by omega)]

theorem length_zeroFill (s : List Nat) : ∀ m, (zeroFill s m).length = s.length
  | 0 => rfl
  | m + 1 => by rw [zeroFill, List.length_set, length_zeroFill s m]

theorem lane_zeroFill (s : List Nat) :
    ∀ (m k : Nat), lane (zeroFill s m) k = if k < m ∧ k < s.length then 0 else lane s k
  | 0, k => by
    rw [zeroFill, if_neg]
    omega
  | m + 1, k => by
    rw [zeroFill]
    by_cases hk : k = m
    · rw [hk]
      by_cases hlen : m < (zeroFill s m).length
      · rw [lane_set_self _ hlen, if_pos ⟨by omega, by rwa [length_zeroFill] at hlen⟩]
      · have hle : s.length ≤ m := by rw [length_zeroFill] at hlen; omega
        rw [List.set_eq_of_length_le (by rw [length_zeroFill]; omega), lane_zeroFill s m,
          if_neg (by omega), if_neg (by omega)]
    · rw [lane_set_other _ (fun h => hk h.symm), lane_zeroFill s m]
      by_cases hin : k < m ∧ k < s.length
      · rw [if_pos hin, if_pos ⟨by omega, hin.2⟩]
      · rw [if_neg hin, if_neg (by omega)]

/-! Header field arithmetic. -/

theorem sizeField_setSizeField (v n : Nat) : sizeField (setSizeField v n) = n % 4294967296 := by
  simp only [sizeField, setSizeField]
  omega

theorem tagField_setTagField (v t : Nat) : tagField (setTagField v t) = t % 65536 := by
  simp only [tagField, setTagField]
  omega

theorem setSizeField_zero (n : Nat) : setSizeField 0 n = n % 4294967296 := by
  simp only [setSizeField]
  omega

theorem flags_tag_of_header_small {v : Nat} (h : v < 4294967296) :
    flagsField v = 0 ∧ tagField v = 0 := by
  simp only [flagsField, tagField]
  omega

/-! Bit-level facts about 64-bit lanes. -/

theorem U64_eq : U64 = 2 ^ 64 := by norm_num [U64]

theorem MASK64_eq : MASK64 = 2 ^ 64 - 1 := by norm_num [MASK64]

theorem testBit_MASK64 (i : Nat) : MASK64.testBit i = decide (i < 64) := by
  rw [MASK64_eq, Nat.testBit_two_pow_sub_one]

theorem testBit_compl64 (y i : Nat) :
    (compl64 y).testBit i = ((y.testBit i) ^^ decide (i < 64)) := by
  rw [compl64, Nat.testBit_xor, testBit_MASK64]

theorem testBit_ge64 {x : Nat} (hx : x < U64) {i : Nat} (h : 64 ≤ i) : x.testBit i = false := by
  apply Nat.testBit_lt_two_pow
  calc x < U64 := hx
    _ = 2 ^ 64 := U64_eq
    _ ≤ 2 ^ i := Nat.pow_le_pow_right (by norm_num) h

theorem merge_lane_select (a b c : Nat) (i : Nat) :
    (b ^^^ ((b ^^^ a) &&& c)).testBit i =
      (if c.testBit i then a.testBit i else b.testBit i) := by
  simp only [Nat.testBit_xor, Nat.testBit_and]
  cases c.testBit i <;> cases a.testBit i <;> cases b.testBit i <;> simp

theorem merge_lane_twostep {a b c : Nat} (ha : a < U64) (hb : b < U64) (hc : c < U64) :
    b ^^^ ((b ^^^ a) &&& c) = (a &&& c) ||| (b &&& compl64 c) := by
  apply Nat.eq_of_testBit_eq
  intro i
  rcases Nat.lt_or_ge i 64 with h | h
  · have h64 : decide (i < 64) = true := by simp [h]
    simp only [Nat.testBit_xor, Nat.testBit_and, Nat.testBit_or, testBit_compl64, h64]
    cases a.testBit i <;> cases b.testBit i <;> cases c.testBit i <;> rfl
  · have h64 : decide (i < 64) = false := by simp only [decide_eq_false_iff_not]; omega
    simp [Nat.testBit_xor, Nat.testBit_and, Nat.testBit_or, testBit_compl64, h64,
      testBit_ge64 ha h, testBit_ge64 hb h, testBit_ge64 hc h]

theorem mask_lane {v u : Nat} (hv : v < U64) (hu : u < U64) :
    v &&& compl64 (v &&& compl64 u) = v &&& u := by
  apply Nat.eq_of_testBit_eq
  intro i
  rcases Nat.lt_or_ge i 64 with h | h
  · have h64 : decide (i < 64) = true := by simp [h]
    simp only [Nat.testBit_and, testBit_compl64, h64]
    cases v.testBit i <;> cases u.testBit i <;> rfl
  · have h64 : decide (i < 64) = false := by simp only [decide_eq_false_iff_not]; omega
    simp [Nat.testBit_and, testBit_compl64, h64, testBit_ge64 hv h, testBit_ge64 hu h]

theorem and_compl64_eq_zero_iff {x y : Nat} (hx : x < U64) :
    x &&& compl64 y = 0 ↔ ∀ i, x.testBit i = true → y.testBit i = true := by
  constructor
  · intro h i hxi
    have hi : i < 64 := by
      by_contra hge
      rw [testBit_ge64 hx (by omega)] at hxi
      exact Bool.false_ne_true hxi
    have h0 : (x &&& compl64 y).testBit i = false := by rw [h]; exact Nat.zero_testBit i
    have h64 : decide (i < 64) = true := by simp [hi]
    rw [Nat.testBit_and, testBit_compl64, h64, hxi] at h0
    cases hyi : y.testBit i
    · rw [hyi] at h0
      simp at h0
    · rfl
  · intro h
    apply Nat.eq_of_testBit_eq
    intro i
    rw [Nat.zero_testBit, Nat.testBit_and, testBit_compl64]
    cases hx' : x.testBit i
    · rfl
    · have hi : i < 64 := by
        by_contra hge
        rw [testBit_ge64 hx (by omega)] at hx'
        exact Bool.false_ne_true hx'
      have h64 : decide (i < 64) = true := by simp [hi]
      rw [h i hx', h64]
      rfl

theorem and_compl64_antisymm {x y : Nat} (hx : x < U64) (hy : y < U64) :
    (x &&& compl64 y = 0 ∧ y &&& compl64 x = 0) ↔ x = y := by
  constructor
  · rintro ⟨h1, h2⟩
    apply Nat.eq_of_testBit_eq
    intro i
    cases hxi : x.testBit i
    · cases hyi : y.testBit i
      · rfl
      · have hcontra := (and_compl64_eq_zero_iff hy).mp h2 i hyi
        rw [hxi] at hcontra
        exact Bool.noConfusion hcontra
    · exact ((and_compl64_eq_zero_iff hx).mp h1 i hxi).symm
  · rintro rfl
    constructor <;> exact (and_compl64_eq_zero_iff hx).mpr (fun i h => h)

theorem and_two_pow_eq_zero {x : Nat} (m : Nat) (h : x.testBit m = false) :
    x &&& 2 ^ m = 0 := by
  apply Nat.eq_of_testBit_eq
  intro j
  rw [Nat.testBit_and, Nat.zero_testBit]
  by_cases hj : j = m
  · rw [hj, h]
    rfl
  · rw [Nat.testBit_two_pow_of_ne (fun hh => hj hh.symm), Bool.and_false]

/-! Shift and popcount facts. -/

theorem two_pow_sub_one_div (d e : Nat) : (2 ^ (d + e) - 1) / 2 ^ d = 2 ^ e - 1 := by
  have hA : 0 < 2 ^ d := pow_pos (by norm_num) d
  have hB : 0 < 2 ^ e := pow_pos (by norm_num) e
  obtain ⟨b, hb⟩ : ∃ b, 2 ^ e = b + 1 := ⟨2 ^ e - 1, by omega⟩
  have key : 2 ^ (d + e) - 1 = 2 ^ d * b + (2 ^ d - 1) := by
    rw [pow_add, hb]
    have hd : 2 ^ d * (b + 1) = 2 ^ d * b + 2 ^ d := by ring
    omega
  rw [key, Nat.mul_add_div hA, Nat.div_eq_of_lt (by omega), hb]
  omega

theorem shiftRight_mask {d : Nat} (hd : d ≤ 64) : MASK64 >>> d = 2 ^ (64 - d) - 1 := by
  have h := two_pow_sub_one_div d (64 - d)
  rw [show d + (64 - d) = 64 from by omega] at h
  rw [Nat.shiftRight_eq_div_pow, MASK64_eq, h]

theorem popcount64_two_pow_sub_one {k : Nat} (hk : k ≤ 64) : popcount64 (2 ^ k - 1) = k := by
  rw [popcount64]
  have hfil : (Finset.range 64).filter (fun i => (2 ^ k - 1).testBit i) = Finset.range k := by
    ext i
    simp only [Finset.mem_filter, Finset.mem_range, Nat.testBit_two_pow_sub_one,
      decide_eq_true_eq]
    omega
  rw [hfil, Finset.card_range]

theorem popcount64_MASK64 : popcount64 MASK64 = 64 := by
  rw [MASK64_eq]
  exact popcount64_two_pow_sub_one (le_refl 64)

theorem ordLoop_ones (s : List Nat) :
    ∀ m, (∀ j, 1 ≤ j → j ≤ m → lane s j = MASK64) → ordLoop s m = 64 * m
  | 0, _ => rfl
  | m + 1, h => by
    rw [ordLoop, h (m + 1) (by omega) (le_refl _), popcount64_MASK64,
      ordLoop_ones s m (fun j h1 h2 => h j h1 (by omega))]
    ring

/-! Additional header helpers. -/

theorem lane_zeroFill_zero (s : List Nat) {m : Nat} (hm : 1 ≤ m) :
    lane (zeroFill s m) 0 = 0 := by
  rw [lane_zeroFill]
  by_cases h : 0 < s.length
  · rw [if_pos ⟨by omega, h⟩]
  · rw [if_neg (by omega), lane_oob (by omega)]

theorem header_after_set_size (z : List Nat) (m : Nat) (hz : lane z 0 = 0) :
    flagsField (lane (bitset_set_size z m) 0) = 0 ∧
    tagField (lane (bitset_set_size z m) 0) = 0 := by
  rw [bitset_set_size]
  by_cases h : 0 < z.length
  · rw [lane_set_self _ h, hz, setSizeField_zero]
    exact flags_tag_of_header_small (Nat.mod_lt _ (by norm_num))
  · rw [List.set_eq_of_length_le (by omega), hz]
    exact flags_tag_of_header_small (by norm_num)

/-! Claim theorems. -/

/-- Claim C1: for every payload lane and bit position, `bitset_merge` selects
`a`'s bit where `c`'s bit is 1 and `b`'s bit where it is 0, and the per-lane
formula `b ^ ((b ^ a) & c)` makes `bitset_merge` bit-for-bit equal to the
two-step form `(a & c) | (b & ~c)`. -/
theorem merge_select_and_twostep (r a b c : List Nat)
    (ha : lanes64 a) (hb : lanes64 b) (hc : lanes64 c) :
    (∀ k i, 1 ≤ k → k ≤ bitset_get_size a → k < r.length →
      (lane (bitset_merge r a b c) k).testBit i =
        (if (lane c k).testBit i then (lane a k).testBit i else (lane b k).testBit i)) ∧
    bitset_merge r a b c = bitset_merge_twostep r a b c := by
  constructor
  · intro k i h1 h2 h3
    rw [bitset_merge, lane_algLoop,
      if_pos ⟨h1, h2, by rw [bitset_set_size, List.length_set]; exact h3⟩]
    exact merge_lane_select _ _ _ i
  · rw [bitset_merge, bitset_merge_twostep]
    exact algLoop_congr _ _
      (fun j v => merge_lane_twostep (lanes64_lane ha j) (lanes64_lane hb j)
        (lanes64_lane hc j)) _ _

/-- Witness for C1 at concrete inputs. -/
theorem merge_select_and_twostep_witness :
    lanes64 [1, 5] ∧
    bitset_merge [9, 0] [1, 5] [1, 3] [1, 6] =
      bitset_merge_twostep [9, 0] [1, 5] [1, 3] [1, 6] :=
  ⟨by decide, (merge_select_and_twostep [9, 0] [1, 5] [1, 3] [1, 6]
      (by decide) (by decide) (by decide)).2⟩

/-- Claim C2 is false on the code: in the spec's concrete scenario the lane of
`b` holding bits 64..127 is all-ones, `c` is zero there, so `bitset_merge`
selects those set bits of `b`; the result is `[2, MASK64, MASK64]`, with bit 64
set, not the claimed `a = [2, MASK64, 0]`. -/
theorem merge_scenario_counterexample :
    bitset_merge [2, 0, 0] [2, MASK64, 0] [2, 0, MASK64] [2, MASK64, 0] =
      [2, MASK64, MASK64] ∧
    bitset_get (bitset_merge [2, 0, 0] [2, MASK64, 0] [2, 0, MASK64] [2, MASK64, 0]) 64 =
      true ∧
    ([2, MASK64, MASK64] : List Nat) ≠ [2, MASK64, 0] := by
  refine ⟨by decide, by decide, by decide⟩

/-- Claim C2 (amended): in the scenario of capacity 128 with `a` = bits 0..63,
`b` = bits 64..127, `c` = bits 0..63, `bitset_merge` produces bits 0..63 set
(from `a`) and bits 64..127 also set (from `b`, whose bits there are set),
i.e. the union `[2, MASK64, MASK64]`. -/
theorem merge_scenario_amended :
    bitset_merge [2, 0, 0] [2, MASK64, 0] [2, 0, MASK64] [2, MASK64, 0] =
      [2, MASK64, MASK64] ∧
    ((List.range 64).all (fun i => bitset_get [2, MASK64, MASK64] i)) = true ∧
    ((List.range 64).all (fun i => bitset_get [2, MASK64, MASK64] (64 + i))) = true := by
  refine ⟨by decide, by decide, by decide⟩

/-- Claim C5: `bitset_copy` copies the source's header lane and payload lanes
`1..size(src)` over the destination, and `copy(dupl(a), a)` reproduces `a`'s
`size(a) + 1` lanes exactly. -/
theorem copy_header_payload_roundtrip (dst src a : List Nat)
    (hsrc : bitset_get_size src + 1 ≤ src.length)
    (ha : bitset_get_size a + 1 ≤ a.length) :
    (∀ k, k ≤ bitset_get_size src → lane (bitset_copy dst src) k = lane src k) ∧
    bitset_copy (bitset_dupl a) a = a.take (bitset_get_size a + 1) := by
  constructor
  · intro k hk
    rw [bitset_copy, lane, List.getD_eq_getElem?_getD,
      List.getElem?_append_left (by rw [List.length_take]; omega),
      List.getElem?_take_of_lt (by omega), lane, List.getD_eq_getElem?_getD]
  · rw [bitset_copy, bitset_dupl,
      List.drop_eq_nil_of_le (by rw [List.length_take]; omega), List.append_nil]

/-- Witness for C5 at concrete inputs. -/
theorem copy_header_payload_roundtrip_witness :
    bitset_get_size [1, 9] + 1 ≤ ([1, 9] : List Nat).length ∧
    lane (bitset_copy [5, 7] [1, 9]) 0 = lane [1, 9] 0 ∧
    bitset_copy (bitset_dupl [1, 3]) [1, 3] = List.take (bitset_get_size [1, 3] + 1) [1, 3] :=
  ⟨by decide,
    (copy_header_payload_roundtrip [5, 7] [1, 9] [1, 3] (by decide) (by decide)).1 0
      (by omega),
    (copy_header_payload_roundtrip [5, 7] [1, 9] [1, 3] (by decide) (by decide)).2⟩

/-- Claim C6: `bitset_mask_inplace`, computing `a[i] &= ~(a[i] & ~b[i])` per
lane, produces exactly what `bitset_and_inplace` produces, and in the concrete
scenario `a = {0,1,2}`, `b = {1,2}` it yields `{1,2}`. -/
theorem mask_inplace_eq_and_inplace (a b : List Nat) (ha : lanes64 a) (hb : lanes64 b) :
    bitset_mask_inplace a b = bitset_and_inplace a b ∧
    bitset_mask_inplace [1, 7] [1, 6] = [1, 6] := by
  constructor
  · rw [bitset_mask_inplace, bitset_and_inplace]
    exact algLoop_congr64 _ _
      (fun j v hv => mask_lane hv (lanes64_lane hb j))
      (fun j v hv => lt_of_le_of_lt Nat.and_le_left hv)
      _ _ (lanes64_lane ha)
  · decide

/-- Witness for C6 at concrete inputs. -/
theorem mask_inplace_eq_and_inplace_witness :
    lanes64 [1, 7] ∧ bitset_mask_inplace [1, 7] [1, 6] = bitset_and_inplace [1, 7] [1, 6] :=
  ⟨by decide, (mask_inplace_eq_and_inplace [1, 7] [1, 6] (by decide) (by decide)).1⟩

/-- Claim C8 is false on the code: `bitset_xand`'s iteration count is the size
field of operand `a`, not of its mutated operand `r`. With `r` of declared
size 2 and `a` of declared size 1, the real `bitset_xand` leaves `r`'s lane 2
untouched at 5, while the claimed r-sized iteration would clear it. -/
theorem xand_bound_counterexample :
    bitset_xand [2, 5, 5] [1, 3, 0] [1, 1, 0] = [2, 0, 5] ∧
    bitset_xand_sizeOfR [2, 5, 5] [1, 3, 0] [1, 1, 0] = [2, 0, 0] ∧
    bitset_xand [2, 5, 5] [1, 3, 0] [1, 1, 0] ≠
      bitset_xand_sizeOfR [2, 5, 5] [1, 3, 0] [1, 1, 0] := by
  refine ⟨by decide, by decide, by decide⟩

/-- Claim C8 (amended): `or_inplace`, `and_inplace`, `diff_inplace` and
`mask_inplace` iterate over the mutated operand `a`'s own size field and touch
no lane outside `1..size(a)`; `bitset_xand` iterates over operand `a`'s size
field (not `r`'s) and touches no lane of `r` outside `1..size(a)`. -/
theorem inplace_frame (a b r : List Nat) (k : Nat)
    (hk : k = 0 ∨ bitset_get_size a < k) :
    lane (bitset_or_inplace a b) k = lane a k ∧
    lane (bitset_and_inplace a b) k = lane a k ∧
    lane (bitset_diff_inplace a b) k = lane a k ∧
    lane (bitset_mask_inplace a b) k = lane a k ∧
    lane (bitset_xand r a b) k = lane r k := by
  refine ⟨?_, ?_, ?_, ?_, ?_⟩
  · rw [bitset_or_inplace, lane_algLoop, if_neg (by omega)]
  · rw [bitset_and_inplace, lane_algLoop, if_neg (by omega)]
  · rw [bitset_diff_inplace, lane_algLoop, if_neg (by omega)]
  · rw [bitset_mask_inplace, lane_algLoop, if_neg (by omega)]
  · rw [bitset_xand, lane_algLoop, if_neg (by omega)]

/-- Witness for the amended C8 at concrete inputs. -/
theorem inplace_frame_witness :
    ((0 : Nat) = 0 ∨ bitset_get_size [1, 3] < 0) ∧
    lane (bitset_xand [2, 5, 5] [1, 3] [1, 3]) 0 = lane [2, 5, 5] 0 :=
  ⟨Or.inl rfl, (inplace_frame [1, 3] [1, 3] [2, 5, 5] 0 (Or.inl rfl)).2.2.2.2⟩

/-- Claim C9 is false on the code as universally stated: `bitset_set_tag`
truncates the population count to 16 bits, so a bitset of 1024 all-ones lanes
has `ord = 65536` but reads back tag 0. -/
theorem tag_ord_truncates :
    bitset_ord (1024 :: List.replicate 1024 MASK64) = 65536 ∧
    bitset_get_tag (bitset_tag_ord (1024 :: List.replicate 1024 MASK64)) = 0 ∧
    (0 : Nat) ≠ 65536 := by
  have hgs : bitset_get_size (1024 :: List.replicate 1024 MASK64) = 1024 := rfl
  have hlane : ∀ j, 1 ≤ j → j ≤ 1024 →
      lane (1024 :: List.replicate 1024 MASK64) j = MASK64 := by
    intro j h1 h2
    obtain ⟨j', rfl⟩ : ∃ j', j = j' + 1 := ⟨j - 1, by omega⟩
    rw [lane_cons_succ, lane_replicate_lt _ (by omega)]
  have hord : ordLoop (1024 :: List.replicate 1024 MASK64) 1024 = 65536 := by
    rw [ordLoop_ones _ 1024 hlane]
  refine ⟨?_, ?_, by norm_num⟩
  · rw [bitset_ord, hgs, hord]
  · rw [bitset_tag_ord, bitset_get_tag, hgs, hord,
      lane_set_self _ (by rw [List.length_cons]; omega), tagField_setTagField]

/-- Claim C9 (amended): after `bitset_tag_ord`, the tag read back equals
`bitset_ord set` reduced modulo 2^16 (the tag field is 16 bits wide); in the
concrete capacity-64 case with bits 0, 3, 5 set, `ord` returns 3 and the tag
reads back as 3. -/
theorem tag_ord_stores_ord_mod (s : List Nat) :
    bitset_get_tag (bitset_tag_ord s) = bitset_ord s % 65536 ∧
    bitset_ord [1, 41] = 3 ∧ bitset_get_tag (bitset_tag_ord [1, 41]) = 3 := by
  refine ⟨?_, by decide, by decide⟩
  rcases s with _ | ⟨x, tl⟩
  · rfl
  · rw [bitset_tag_ord, bitset_get_tag, bitset_ord, lane_set_self _ (by simp),
      tagField_setTagField]

/-- Claim C10: `bitset_reset`, `bitset_null` and `bitset_universe` all leave the
header's `flags` and `tag` fields zero, whatever they were before: each zeroes
or overwrites lane 0 and then stores only the `size` field. -/
theorem reset_null_universe_clear_flags_tag (s : List Nat) (elements : Nat) :
    (flagsField (lane (bitset_reset s) 0) = 0 ∧ tagField (lane (bitset_reset s) 0) = 0) ∧
    (flagsField (lane (bitset_null s elements) 0) = 0 ∧
      tagField (lane (bitset_null s elements) 0) = 0) ∧
    (flagsField (lane (bitset_universe s elements) 0) = 0 ∧
      tagField (lane (bitset_universe s elements) 0) = 0) := by
  have hreq : 2 ≤ REQ_SZ elements := by rw [REQ_SZ]; omega
  refine ⟨?_, ?_, ?_⟩
  · rw [bitset_reset]
    exact header_after_set_size _ _ (lane_zeroFill_zero s (by omega))
  · rw [bitset_null]
    exact header_after_set_size _ _ (lane_zeroFill_zero s (by omega))
  · simp only [bitset_universe]
    refine header_after_set_size _ _ ?_
    rw [lane_set_other _ (by omega), lane_fillOnes, if_neg (by omega)]
    by_cases h : 0 < s.length
    · rw [lane_set_self _ h]
    · rw [List.set_eq_of_length_le (by omega), lane_oob (by omega)]

theorem impliesLoop_eqLoop (a b : List Nat) (ha : lanes64 a) (hb : lanes64 b) :
    ∀ m, (impliesLoop a b m = true ∧ impliesLoop b a m = true) ↔ eqLoop a b m = true
  | 0 => by simp [impliesLoop, eqLoop]
  | m + 1 => by
    have hx := lanes64_lane ha (m + 1)
    have hy := lanes64_lane hb (m + 1)
    simp only [impliesLoop, eqLoop]
    by_cases hab : lane a (m + 1) = lane b (m + 1)
    · have h12 := (and_compl64_antisymm hx hy).mpr hab
      have hd : decide (lane a (m + 1) = lane b (m + 1)) = true := by simp [hab]
      rw [if_neg (by simpa using h12.1), if_neg (by simpa using h12.2), hd, Bool.true_and]
      exact impliesLoop_eqLoop a b ha hb m
    · have hd : decide (lane a (m + 1) = lane b (m + 1)) = false := by simp [hab]
      by_cases hone : lane a (m + 1) &&& compl64 (lane b (m + 1)) = 0
      · have htwo : lane b (m + 1) &&& compl64 (lane a (m + 1)) ≠ 0 :=
          fun h2 => hab ((and_compl64_antisymm hx hy).mp ⟨hone, h2⟩)
        rw [if_neg (by simpa using hone), if_pos htwo, hd, Bool.false_and]
        simp
      · rw [if_pos hone, hd, Bool.false_and]
        simp

/-- Claim C7: for bitsets of equal declared size, `bitset_implies(a,b)` and
`bitset_implies(b,a)` both hold exactly when `bitset_equal(a,b)` holds. -/
theorem implies_antisymm (a b : List Nat)
    (hsz : bitset_get_size a = bitset_get_size b)
    (ha : lanes64 a) (hb : lanes64 b) :
    ((bitset_implies a b = true ∧ bitset_implies b a = true) ↔
      bitset_equal a b = true) := by
  rw [bitset_implies, bitset_implies, bitset_equal, hsz]
  exact impliesLoop_eqLoop a b ha hb (bitset_get_size b)

/-- Witness for C7 at concrete inputs. -/
theorem implies_antisymm_witness :
    bitset_get_size [1, 5] = bitset_get_size [1, 3] ∧
    ((bitset_implies [1, 5] [1, 3] = true ∧ bitset_implies [1, 3] [1, 5] = true) ↔
      bitset_equal [1, 5] [1, 3] = true) :=
  ⟨rfl, implies_antisymm [1, 5] [1, 3] rfl (by decide) (by decide)⟩

theorem shiftRight6_eq (x : Nat) : x >>> 6 = x / 64 := by
  rw [Nat.shiftRight_eq_div_pow]

/-- Claim C4 is false at `elements = 0`: the size_t subtraction in `REQ_SZ`
wraps around, so `bitset_new 0` allocates `2 + (2^64 - 1) / 64 = 2^58 + 1`
lanes, not the `ceil(0/64) + 1 = 1` lanes the claim's formula gives. -/
theorem new_zero_counterexample :
    (bitset_new 0).length = 288230376151711745 ∧
    (0 + 63) / 64 + 1 = 1 ∧ (288230376151711745 : Nat) ≠ 1 := by
  have hreq : REQ_SZ 0 = 288230376151711745 := by
    simp only [REQ_SZ, MASK64, U64, shiftRight6_eq]
  refine ⟨?_, by norm_num, by norm_num⟩
  rw [bitset_new, bitset_set_size, List.length_set, List.length_replicate, hreq]

/-- Claim C4 (amended): for every element count with `1 ≤ elements < 2^64`
whose payload-lane count fits the 32-bit size field, `bitset_new` returns
zero-initialized storage whose header `size` field equals
`ceil(elements/64)`, the number of payload lanes, with total allocated lanes
equal to that count plus one header lane (and flags and tag zero). -/
theorem new_size_and_layout (elements : Nat) (h1 : 1 ≤ elements) (h2 : elements < U64)
    (hw32 : REQ_SZ elements - 1 < 4294967296) :
    bitset_get_size (bitset_new elements) = (elements + 63) / 64 ∧
    (bitset_new elements).length = (elements + 63) / 64 + 1 ∧
    (∀ k, 1 ≤ k → lane (bitset_new elements) k = 0) ∧
    flagsField (lane (bitset_new elements) 0) = 0 ∧
    tagField (lane (bitset_new elements) 0) = 0 := by
  have h2' : elements < 18446744073709551616 := by simpa [U64] using h2
  have hreq : REQ_SZ elements = 2 + (elements - 1) / 64 := by
    simp only [REQ_SZ, MASK64, U64, shiftRight6_eq]
    omega
  have hlane0 : lane (bitset_new elements) 0 = (REQ_SZ elements - 1) % 4294967296 := by
    rw [bitset_new, bitset_set_size,
      lane_set_self _ (by rw [List.length_replicate]; omega),
      lane_replicate_lt _ (by omega), setSizeField_zero]
  refine ⟨?_, ?_, ?_, ?_, ?_⟩
  · rw [bitset_get_size, hlane0]
    simp only [sizeField]
    omega
  · rw [bitset_new, bitset_set_size, List.length_set, List.length_replicate]
    omega
  · intro k hk
    rw [bitset_new, bitset_set_size, lane_set_other _ (by omega)]
    by_cases hkw : k < REQ_SZ elements
    · rw [lane_replicate_lt _ hkw]
    · rw [lane_oob (by rw [List.length_replicate]; omega)]
  · rw [hlane0]
    exact (flags_tag_of_header_small (Nat.mod_lt _ (by norm_num))).1
  · rw [hlane0]
    exact (flags_tag_of_header_small (Nat.mod_lt _ (by norm_num))).2

/-- Witness for the amended C4 at a concrete input. -/
theorem new_size_and_layout_witness :
    1 ≤ 100 ∧ bitset_get_size (bitset_new 100) = (100 + 63) / 64 :=
  ⟨by omega, (new_size_and_layout 100 (by omega) (by decide) (by decide)).1⟩

theorem lane_universe (s : List Nat) (n : Nat) (hs : REQ_SZ n ≤ s.length) :
    ∀ k, lane (bitset_universe s n) k =
      if k = 0 then setSizeField 0 (REQ_SZ n - 1)
      else if k < REQ_SZ n - 1 then MASK64
      else if k = REQ_SZ n - 1 then
        MASK64 >>> (64 * (REQ_SZ n - 1) - n)
      else lane s k := by
  intro k
  have hr2 : 2 ≤ REQ_SZ n := by simp only [REQ_SZ]; omega
  have hw1 : 1 ≤ REQ_SZ n - 1 := by omega
  simp only [bitset_universe, bitset_set_size]
  have hlen1 : (fillOnes (s.set 0 0) (REQ_SZ n - 1)).length = s.length := by
    rw [length_fillOnes, List.length_set]
  have hlaneW : lane (fillOnes (s.set 0 0) (REQ_SZ n - 1)) (REQ_SZ n - 1) = MASK64 := by
    rw [lane_fillOnes, if_pos ⟨hw1, le_refl _, by rw [List.length_set]; omega⟩]
  by_cases hk0 : k = 0
  · rw [hk0, if_pos rfl,
      lane_set_self _ (by rw [List.length_set, hlen1]; omega),
      lane_set_other _ (by omega), lane_fillOnes, if_neg (by omega),
      lane_set_self _ (by omega)]
  · rw [if_neg hk0, lane_set_other _ (fun h => hk0 h.symm)]
    by_cases hkw : k < REQ_SZ n - 1
    · rw [if_pos hkw, lane_set_other _ (by omega), lane_fillOnes,
        if_pos ⟨by omega, by omega, by rw [List.length_set]; omega⟩]
    · rw [if_neg hkw]
      by_cases hkeq : k = REQ_SZ n - 1
      · rw [if_pos hkeq, hkeq, lane_set_self _ (by rw [hlen1]; omega), hlaneW]
      · rw [if_neg hkeq, lane_set_other _ (fun h => hkeq h.symm), lane_fillOnes,
          if_neg (by omega), lane_set_other _ (by omega)]

/-- Claim C3: for every valid element count `n` (at least 1, in the size_t
range, with a payload-lane count fitting the 32-bit size field, and storage
large enough), `bitset_universe` produces cardinality `bitset_ord` exactly
`n`, no set bit at element index `n` or beyond within the payload lanes, and
a final payload lane masked by a right shift of `64*w - n` pad bits, where
`w` is the final payload-lane index. -/
theorem universe_ord_and_mask (s : List Nat) (n : Nat)
    (h1 : 1 ≤ n) (h2 : n < U64)
    (hw32 : REQ_SZ n - 1 < 4294967296)
    (hs : REQ_SZ n ≤ s.length) :
    bitset_ord (bitset_universe s n) = n ∧
    (∀ e, n ≤ e → e < 64 * (REQ_SZ n - 1) →
      bitset_get (bitset_universe s n) e = false) ∧
    lane (bitset_universe s n) (REQ_SZ n - 1) =
      MASK64 >>> (64 * (REQ_SZ n - 1) - n) := by
  have h2' : n < 18446744073709551616 := by simpa [U64] using h2
  have hreq : REQ_SZ n = 2 + (n - 1) / 64 := by
    simp only [REQ_SZ, MASK64, U64, shiftRight6_eq]
    omega
  have hw1 : 1 ≤ REQ_SZ n - 1 := by omega
  have hnles : 64 * (REQ_SZ n - 1 - 1) < n := by omega
  have hnge : n ≤ 64 * (REQ_SZ n - 1) := by omega
  have hd64 : 64 * (REQ_SZ n - 1) - n < 64 := by omega
  have hL := lane_universe s n hs
  have hgs : bitset_get_size (bitset_universe s n) = REQ_SZ n - 1 := by
    rw [bitset_get_size, hL 0, if_pos rfl, setSizeField_zero]
    simp only [sizeField]
    omega
  have hlast : lane (bitset_universe s n) (REQ_SZ n - 1) =
      MASK64 >>> (64 * (REQ_SZ n - 1) - n) := by
    rw [hL, if_neg (by omega), if_neg (by omega), if_pos rfl]
  refine ⟨?_, ?_, hlast⟩
  · rw [bitset_ord, hgs]
    obtain ⟨v, hv⟩ : ∃ v, REQ_SZ n - 1 = v + 1 := ⟨REQ_SZ n - 2, by omega⟩
    have hones : ∀ j, 1 ≤ j → j ≤ v → lane (bitset_universe s n) j = MASK64 := by
      intro j hj1 hj2
      rw [hL, if_neg (by omega), if_pos (by omega)]
    rw [hv, ordLoop, ordLoop_ones _ v hones, ← hv, hlast,
      shiftRight_mask (by omega), popcount64_two_pow_sub_one (by omega)]
    omega
  · intro e he1 he2
    rw [bitset_get]
    simp only [decide_eq_false_iff_not, ne_eq, not_not]
    have he6 : e >>> 6 = e / 64 := shiftRight6_eq e
    have he63 : e &&& 63 = e % 64 := by
      have h63 : (63 : Nat) = 2 ^ 6 - 1 := by norm_num
      rw [h63, Nat.and_pow_two_sub_one_eq_mod]
    have hidx : 1 + e / 64 = REQ_SZ n - 1 := by omega
    rw [he6, he63, Nat.one_shiftLeft, hidx, hlast, shiftRight_mask (by omega)]
    apply and_two_pow_eq_zero
    rw [Nat.testBit_two_pow_sub_one]
    simp only [decide_eq_false_iff_not]
    omega

/-- Witness for C3 at a concrete input. -/
theorem universe_ord_and_mask_witness :
    1 ≤ 5 ∧ bitset_ord (bitset_universe [0, 0] 5) = 5 :=
  ⟨by omega, (universe_ord_and_mask [0, 0] 5 (by omega) (by decide) (by decide)
      (by decide)).1⟩

end Bitset
